import Mathlib

/-!
Shallow embedding of the scenario discovery utilities of the EMA workbench
(source file src/ema_workbench/analysis/scenario_discovery_util.py).

Numeric values are modelled as rationals. Categorical labels are modelled as
natural numbers. A pandas DataFrame of experiments is modelled column wise:
numeric columns first, categorical columns second, each dimension addressed
by its positional index within its kind.
-/

namespace ScenarioDiscovery

/-- A numeric column of the experiment DataFrame: one rational per row. -/
structure NumCol where
  values : List ℚ
deriving DecidableEq

/-- A categorical column of the experiment DataFrame: the dtype categories
together with one label per row (the pandas Categorical invariant is that
each stored label is one of the categories; it is taken as a hypothesis
where a proof needs it). -/
structure CatCol where
  categories : Finset ℕ
  values : List ℕ
deriving DecidableEq

/-- Column oriented dataset: row count plus numeric and categorical columns. -/
structure Dataset where
  nrows : ℕ
  numCols : List NumCol
  catCols : List CatCol
deriving DecidableEq

/-- A box (DataFrame of box limits): per numeric dimension the pair
(lower, upper) (rows 0 and 1 of the limits frame), per categorical dimension
the included label set (both rows of the limits frame hold this same set). -/
structure Box where
  numLims : List (ℚ × ℚ)
  catLims : List (Finset ℕ)
deriving DecidableEq

/-- A reference to one dimension: a numeric or a categorical column index. -/
inductive DimRef where
  | num (j : ℕ)
  | cat (j : ℕ)
deriving DecidableEq

/-- Numeric value of column j at row i (out of range reads default to 0;
the source would raise instead, and no theorem below depends on the default). -/
def Dataset.numVal (x : Dataset) (j i : ℕ) : ℚ :=
  ((x.numCols.getD j ⟨[]⟩).values).getD i 0

/-- Categorical label of column j at row i. -/
def Dataset.catVal (x : Dataset) (j i : ℕ) : ℕ :=
  ((x.catCols.getD j ⟨∅, []⟩).values).getD i 0

/-- Dtype categories of categorical column j. -/
def Dataset.catCategories (x : Dataset) (j : ℕ) : Finset ℕ :=
  (x.catCols.getD j ⟨∅, []⟩).categories

/-- Limit pair of numeric dimension j of a box. -/
def Box.numLim (b : Box) (j : ℕ) : ℚ × ℚ :=
  b.numLims.getD j (0, 0)

/-- Included label set of categorical dimension j of a box. -/
def Box.catLim (b : Box) (j : ℕ) : Finset ℕ :=
  b.catLims.getD j ∅

/-- Dimension list of a dataset in encounter order: numeric columns first,
then categorical columns, mirroring the two loops of the source function
in_box over x.select_dtypes. -/
def Dataset.dims (x : Dataset) : List DimRef :=
  (List.range x.numCols.length).map DimRef.num
    ++ (List.range x.catCols.length).map DimRef.cat

/-- Dimension list of a box limits frame (box_init.columns in the source). -/
def Box.dims (b : Box) : List DimRef :=
  (List.range b.numLims.length).map DimRef.num
    ++ (List.range b.catLims.length).map DimRef.cat

/-- Satisfaction of one box limit by row i, as checked inside the source
function in_box: a numeric dimension checks lower <= value <= upper; a
categorical dimension computes not_present = categories minus the included
entries and, when not_present is nonempty, keeps exactly the rows whose label
lies in the included entries (pd.isnull after cat.remove_categories(entries)),
and otherwise skips the column, leaving the logical vector unchanged. -/
def dimSat (x : Dataset) (b : Box) (i : ℕ) : DimRef → Bool
  | .num j =>
      decide ((b.numLim j).1 ≤ x.numVal j i) && decide (x.numVal j i ≤ (b.numLim j).2)
  | .cat j =>
      if (x.catCategories j \ b.catLim j).Nonempty then
        decide (x.catVal j i ∈ b.catLim j)
      else
        true

/-- Conjunction of the limit checks over a selected dimension list; the
selection models the column selection x[restricted_dims], box[restricted_dims]
performed by the caller in calculate_quasip. -/
def inBoxDims (x : Dataset) (b : Box) (dims : List DimRef) (i : ℕ) : Bool :=
  dims.all (dimSat x b i)

/-- The source function in_box, one row at a time: the logical vector starts
all true and is conjoined with the check of every numeric column of x and
then of every categorical column of x. -/
def inBoxRow (x : Dataset) (b : Box) (i : ℕ) : Bool :=
  inBoxDims x b x.dims i

/-- The source function in_box: the boolean vector over all rows. -/
def in_box (x : Dataset) (b : Box) : List Bool :=
  (List.range x.nrows).map (inBoxRow x b)

/-- Helper: membership of a row in a box unfolds to a bounded conjunction
over the numeric and the categorical columns of the dataset. -/
theorem inBoxRow_iff_forall (x : Dataset) (b : Box) (i : ℕ) :
    inBoxRow x b i = true ↔
      ((∀ j < x.numCols.length, dimSat x b i (.num j) = true) ∧
       (∀ j < x.catCols.length, dimSat x b i (.cat j) = true)) := by
  simp [inBoxRow, inBoxDims, Dataset.dims, List.all_eq_true]

/-- Helper: the categorical check of in_box is equivalent to plain membership
of the row label in the included set, given the pandas Categorical invariant
for that column at that row. -/
theorem dimSat_cat_iff (x : Dataset) (b : Box) (i j : ℕ)
    (hwf : x.catVal j i ∈ x.catCategories j) :
    dimSat x b i (.cat j) = true ↔ x.catVal j i ∈ b.catLim j := by
  by_cases hne : (x.catCategories j \ b.catLim j).Nonempty
  · simp [dimSat, hne]
  · have hsub : x.catCategories j ⊆ b.catLim j := by
      rw [← Finset.sdiff_eq_empty_iff_subset]
      exact Finset.not_nonempty_iff_eq_empty.mp hne
    simp [dimSat, hne]
    exact hsub hwf

/-- Helper: the numeric check of in_box is the inclusive interval bound. -/
theorem dimSat_num_iff (x : Dataset) (b : Box) (i j : ℕ) :
    dimSat x b i (.num j) = true ↔
      (b.numLim j).1 ≤ x.numVal j i ∧ x.numVal j i ≤ (b.numLim j).2 := by
  simp [dimSat]

/-- C1: in_box classifies row i as inside the box iff, for every numeric
dimension, lower <= value <= upper holds (both ends inclusive) and, for every
categorical dimension, the row label lies in the included set of the box; the
per dimension predicates are conjoined over the full dimension set of the
dataset. The hypothesis is the pandas Categorical invariant: the stored label
of each categorical column at row i is one of the dtype categories of that
column. -/
theorem in_box_iff_limits (x : Dataset) (b : Box) (i : ℕ)
    (hcatwf : ∀ j < x.catCols.length, x.catVal j i ∈ x.catCategories j) :
    inBoxRow x b i = true ↔
      ((∀ j < x.numCols.length,
          (b.numLim j).1 ≤ x.numVal j i ∧ x.numVal j i ≤ (b.numLim j).2) ∧
       (∀ j < x.catCols.length, x.catVal j i ∈ b.catLim j)) := by
  rw [inBoxRow_iff_forall]
  constructor
  · rintro ⟨h1, h2⟩
    exact ⟨fun j hj => (dimSat_num_iff x b i j).mp (h1 j hj),
           fun j hj => (dimSat_cat_iff x b i j (hcatwf j hj)).mp (h2 j hj)⟩
  · rintro ⟨h1, h2⟩
    exact ⟨fun j hj => (dimSat_num_iff x b i j).mpr (h1 j hj),
           fun j hj => (dimSat_cat_iff x b i j (hcatwf j hj)).mpr (h2 j hj)⟩

/-- Concrete dataset for witnesses: one row, one numeric column holding 3,
one categorical column with categories 0 and 1 holding label 1. -/
def xW : Dataset := ⟨1, [⟨[3]⟩], [⟨{0, 1}, [1]⟩]⟩

/-- Concrete box for witnesses: numeric limits (2, 4), included labels only 1. -/
def bW : Box := ⟨[(2, 4)], [{1}]⟩

/-- Witness for C1 at a concrete row, dataset and box. -/
theorem in_box_iff_limits_witness :
    (∀ j < xW.catCols.length, xW.catVal j 0 ∈ xW.catCategories j) ∧
    (inBoxRow xW bW 0 = true ↔
      ((∀ j < xW.numCols.length,
          (bW.numLim j).1 ≤ xW.numVal j 0 ∧ xW.numVal j 0 ≤ (bW.numLim j).2) ∧
       (∀ j < xW.catCols.length, xW.catVal j 0 ∈ bW.catLim j))) :=
  ⟨by decide, in_box_iff_limits xW bW 0 (by decide)⟩

/-- Componentwise containment of box limits: equal shapes, nested numeric
intervals and nested categorical included sets. -/
def boxSubset (b2 b1 : Box) : Prop :=
  b2.numLims.length = b1.numLims.length ∧
  b2.catLims.length = b1.catLims.length ∧
  (∀ j < b1.numLims.length,
    (b1.numLim j).1 ≤ (b2.numLim j).1 ∧ (b2.numLim j).2 ≤ (b1.numLim j).2) ∧
  (∀ j < b1.catLims.length, b2.catLim j ⊆ b1.catLim j)

instance (b2 b1 : Box) : Decidable (boxSubset b2 b1) := by
  unfold boxSubset; infer_instance

/-- C5: membership is monotone; if the limits of box2 are componentwise
contained in the limits of box1, then any row inside box2 is inside box1. -/
theorem in_box_mono (x : Dataset) (b1 b2 : Box) (i : ℕ) (h : boxSubset b2 b1)
    (hin : inBoxRow x b2 i = true) : inBoxRow x b1 i = true := by
  obtain ⟨hnlen, hclen, hnum, hcat⟩ := h
  rw [inBoxRow_iff_forall] at hin ⊢
  obtain ⟨hn2, hc2⟩ := hin
  constructor
  · intro j hj
    rcases lt_or_le j b1.numLims.length with hjl | hjl
    · have h2 := (dimSat_num_iff x b2 i j).mp (hn2 j hj)
      obtain ⟨hlo, hhi⟩ := hnum j hjl
      exact (dimSat_num_iff x b1 i j).mpr ⟨le_trans hlo h2.1, le_trans h2.2 hhi⟩
    · have e1 : b1.numLim j = (0, 0) := List.getD_eq_default _ _ hjl
      have e2 : b2.numLim j = (0, 0) := List.getD_eq_default _ _ (hnlen ▸ hjl)
      have h2 := (dimSat_num_iff x b2 i j).mp (hn2 j hj)
      rw [e2] at h2
      exact (dimSat_num_iff x b1 i j).mpr (e1 ▸ h2)
  · intro j hj
    rcases lt_or_le j b1.catLims.length with hjl | hjl
    · have hsub := hcat j hjl
      have h2 := hc2 j hj
      by_cases hne : (x.catCategories j \ b1.catLim j).Nonempty
      · by_cases hne2 : (x.catCategories j \ b2.catLim j).Nonempty
        · have hm : x.catVal j i ∈ b2.catLim j := by
            simpa [dimSat, hne2] using h2
          simp [dimSat, hne]
          exact hsub hm
        · exfalso
          have hsub2 : x.catCategories j ⊆ b2.catLim j :=
            Finset.sdiff_eq_empty_iff_subset.mp
              (Finset.not_nonempty_iff_eq_empty.mp hne2)
          obtain ⟨a, ha⟩ := hne
          rw [Finset.mem_sdiff] at ha
          exact ha.2 (hsub (hsub2 ha.1))
      · simp [dimSat, hne]
    · have e1 : b1.catLim j = ∅ := List.getD_eq_default _ _ hjl
      have e2 : b2.catLim j = ∅ := List.getD_eq_default _ _ (hclen ▸ hjl)
      have h2 := hc2 j hj
      simp only [dimSat] at h2 ⊢
      rw [e1]
      rw [e2] at h2
      exact h2

/-- Concrete outer box for witnesses: contains bW componentwise. -/
def b1W : Box := ⟨[(1, 5)], [{0, 1}]⟩

/-- Witness for C5 at concrete nested boxes and a concrete row. -/
theorem in_box_mono_witness :
    boxSubset bW b1W ∧ inBoxRow xW bW 0 = true ∧ inBoxRow xW b1W 0 = true :=
  ⟨by decide, by decide, in_box_mono xW b1W bW 0 (by decide) (by decide)⟩

/-- Exact equality of the limit pair of one dimension between two boxes, as
computed by the numpy comparison box_init.values == box_limits.values inside
the source function determine_restricted_dims (both rows of the column are
compared; for a categorical column both rows hold the included set, so the
comparison amounts to set equality). -/
def limEqAt (box box_init : Box) : DimRef → Bool
  | .num j => decide (box.numLim j = box_init.numLim j)
  | .cat j => decide (box.catLim j = box_init.catLim j)

/-- The source function determine_restricted_dims: the columns of box_init
whose limit pairs are not elementwise equal between box and box_init. -/
def determine_restricted_dims (box box_init : Box) : List DimRef :=
  box_init.dims.filter (fun d => ! limEqAt box box_init d)

/-- The source function determine_nr_restricted_dims: the number of entries
of the restricted dimension list. -/
def determine_nr_restricted_dims (box box_init : Box) : ℕ :=
  (determine_restricted_dims box box_init).length

/-- C3: a dimension of the reference box is in the restricted dimension list
iff its limit pair in the box differs from its limit pair in box_init under
exact equality; the restricted dimensions of box_init against itself are
empty; and the restricted dimension count is the cardinality of the list. -/
theorem restricted_dims_spec (box box_init : Box) :
    (∀ d ∈ box_init.dims,
      (d ∈ determine_restricted_dims box box_init ↔
        (match d with
         | .num j => box.numLim j ≠ box_init.numLim j
         | .cat j => box.catLim j ≠ box_init.catLim j))) ∧
    determine_restricted_dims box_init box_init = [] ∧
    determine_nr_restricted_dims box box_init =
      (determine_restricted_dims box box_init).length := by
  refine ⟨fun d hd => ?_, ?_, rfl⟩
  · rw [determine_restricted_dims, List.mem_filter]
    cases d with
    | num j => simp [limEqAt, hd]
    | cat j => simp [limEqAt, hd]
  · rw [determine_restricted_dims]
    rw [List.filter_eq_nil_iff]
    intro d _
    cases d <;> simp [limEqAt]

/-- Witness for C3: concrete restricted dimension membership. -/
theorem restricted_dims_spec_witness :
    DimRef.num 0 ∈ determine_restricted_dims bW b1W ↔ bW.numLim 0 ≠ b1W.numLim 0 :=
  (restricted_dims_spec bW b1W).1 (DimRef.num 0) (by decide)

/-- Normalized limit pair of one dimension, as computed inside the loop of
the source function normalize: a categorical dimension yields lower bound 0
and upper bound the fraction of included categories; a numeric dimension is
mapped by the affine transform with a = 1/dif and b = -1*init_lower/dif,
where dif is the width of the box_init interval. Division is total on the
rationals (division by zero yields 0); the source performs the same division
unguarded, with no zero width check (see the zero width theorem below). -/
def normalizeDim (box_lim box_init : Box) : DimRef → ℚ × ℚ
  | .cat j =>
      (0, ((box_lim.catLim j).card : ℚ) / ((box_init.catLim j).card : ℚ))
  | .num j =>
      let lower := (box_lim.numLim j).1
      let upper := (box_lim.numLim j).2
      let dif := (box_init.numLim j).2 - (box_init.numLim j).1
      let a := 1 / dif
      let b := -1 * (box_init.numLim j).1 / dif
      (a * lower + b, a * upper + b)

/-- The source function normalize over a list of requested dimensions. -/
def normalize (box_lim box_init : Box) (uncertainties : List DimRef) :
    List (ℚ × ℚ) :=
  uncertainties.map (normalizeDim box_lim box_init)

/-- C2: for a requested numeric dimension, normalize emits
(a*lower + b, a*upper + b) with a = 1/(init_upper - init_lower) and
b = -init_lower * a; consequently box_init itself maps to exactly (0, 1) and
a box nested inside box_init on a nondegenerate numeric dimension maps into
[0, 1]; a categorical dimension maps to the pair (0, fraction of included
categories relative to box_init). -/
theorem normalize_spec (box_lim box_init : Box) :
    (∀ j, normalize box_lim box_init [.num j] =
        [((1 / ((box_init.numLim j).2 - (box_init.numLim j).1)) * (box_lim.numLim j).1 +
            -(box_init.numLim j).1 * (1 / ((box_init.numLim j).2 - (box_init.numLim j).1)),
          (1 / ((box_init.numLim j).2 - (box_init.numLim j).1)) * (box_lim.numLim j).2 +
            -(box_init.numLim j).1 * (1 / ((box_init.numLim j).2 - (box_init.numLim j).1)))]) ∧
    (∀ j, normalize box_lim box_init [.cat j] =
        [(0, ((box_lim.catLim j).card : ℚ) / ((box_init.catLim j).card : ℚ))]) ∧
    (∀ j, (box_init.numLim j).1 < (box_init.numLim j).2 →
        normalize box_init box_init [.num j] = [(0, 1)]) ∧
    (∀ j, (box_init.numLim j).1 < (box_init.numLim j).2 →
        (box_init.numLim j).1 ≤ (box_lim.numLim j).1 →
        (box_lim.numLim j).1 ≤ (box_lim.numLim j).2 →
        (box_lim.numLim j).2 ≤ (box_init.numLim j).2 →
        0 ≤ (normalizeDim box_lim box_init (.num j)).1 ∧
        (normalizeDim box_lim box_init (.num j)).1 ≤
          (normalizeDim box_lim box_init (.num j)).2 ∧
        (normalizeDim box_lim box_init (.num j)).2 ≤ 1) := by
  refine ⟨fun j => ?_, fun j => rfl, fun j h => ?_, fun j h h1 h2 h3 => ?_⟩
  · simp only [normalize, List.map_cons, List.map_nil, normalizeDim]
    rw [List.cons.injEq, Prod.mk.injEq]
    refine ⟨⟨by ring, by ring⟩, rfl⟩
  · have hd : (box_init.numLim j).2 - (box_init.numLim j).1 ≠ 0 :=
      sub_ne_zero.mpr (ne_of_gt h)
    simp only [normalize, List.map_cons, List.map_nil, normalizeDim]
    rw [List.cons.injEq, Prod.mk.injEq]
    refine ⟨⟨?_, ?_⟩, rfl⟩
    · field_simp
    · field_simp
      ring
  · have hd : (0 : ℚ) < (box_init.numLim j).2 - (box_init.numLim j).1 :=
      sub_pos.mpr h
    have e1 : (normalizeDim box_lim box_init (.num j)).1 =
        ((box_lim.numLim j).1 - (box_init.numLim j).1) /
          ((box_init.numLim j).2 - (box_init.numLim j).1) := by
      simp only [normalizeDim]
      ring
    have e2 : (normalizeDim box_lim box_init (.num j)).2 =
        ((box_lim.numLim j).2 - (box_init.numLim j).1) /
          ((box_init.numLim j).2 - (box_init.numLim j).1) := by
      simp only [normalizeDim]
      ring
    refine ⟨?_, ?_, ?_⟩
    · rw [e1]
      exact div_nonneg (sub_nonneg.mpr h1) (le_of_lt hd)
    · rw [e1, e2]
      exact div_le_div_of_nonneg_right (by linarith) hd.le
    · rw [e2]
      rw [div_le_one hd]
      linarith

/-- Concrete reference box for witnesses: numeric interval (0, 10), two
categories. -/
def biW : Box := ⟨[(0, 10)], [{0, 1}]⟩

/-- Concrete nested box for witnesses: numeric interval (2, 8). -/
def bW2 : Box := ⟨[(2, 8)], [{1}]⟩

/-- Witness for C2: the reference box normalizes to (0, 1) and a nested box
normalizes into [0, 1], at concrete boxes. -/
theorem normalize_spec_witness :
    ((biW.numLim 0).1 < (biW.numLim 0).2 ∧
      normalize biW biW [.num 0] = [(0, 1)]) ∧
    (0 ≤ (normalizeDim bW2 biW (.num 0)).1 ∧
      (normalizeDim bW2 biW (.num 0)).1 ≤ (normalizeDim bW2 biW (.num 0)).2 ∧
      (normalizeDim bW2 biW (.num 0)).2 ≤ 1) :=
  ⟨⟨by decide, (normalize_spec biW biW).2.2.1 0 (by decide)⟩,
   (normalize_spec bW2 biW).2.2.2 0 (by decide) (by decide) (by decide) (by decide)⟩

/-- Concrete reference box with a zero width numeric dimension. -/
def bDegen : Box := ⟨[(5, 5)], []⟩

/-- C6 evaluation: on a zero width reference dimension the source function
normalize has no guard and no error path at all; it divides by the zero
width unguarded and returns a value. In this rational embedding the total
division maps the Python division of numpy floats, which emits inf or NaN
scale factors with only a runtime warning; no ValueError or any other
explicit signal is raised on this input. -/
theorem normalize_degenerate_eval :
    normalize bDegen bDegen [.num 0] = [(0, 0)] := by
  norm_num [normalize, normalizeDim, bDegen, Box.numLim]

/-- Minimum of a list of rationals (x.min over a pandas column; the empty
list default 0 is never reached on a well shaped column). -/
def listMin : List ℚ → ℚ
  | [] => 0
  | v :: vs => vs.foldl min v

/-- Maximum of a list of rationals (x.max over a pandas column). -/
def listMax : List ℚ → ℚ
  | [] => 0
  | v :: vs => vs.foldl max v

/-- Helper: a min fold never exceeds its initial accumulator. -/
theorem foldl_min_le_init (vs : List ℚ) : ∀ a : ℚ, vs.foldl min a ≤ a := by
  induction vs with
  | nil => intro a; simp
  | cons w ws ih =>
    intro a
    calc (w :: ws).foldl min a = ws.foldl min (min a w) := rfl
    _ ≤ min a w := ih (min a w)
    _ ≤ a := min_le_left a w

/-- Helper: a min fold never exceeds a member of the list. -/
theorem foldl_min_le_mem (vs : List ℚ) :
    ∀ a v : ℚ, v ∈ vs → vs.foldl min a ≤ v := by
  induction vs with
  | nil => intro a v hv; cases hv
  | cons w ws ih =>
    intro a v hv
    rcases List.mem_cons.mp hv with h | h
    · subst h
      exact le_trans (foldl_min_le_init ws (min a v)) (min_le_right a v)
    · exact ih (min a w) v h

/-- Helper: the column minimum bounds every column value from below. -/
theorem listMin_le (l : List ℚ) (v : ℚ) (hv : v ∈ l) : listMin l ≤ v := by
  cases l with
  | nil => cases hv
  | cons w ws =>
    rcases List.mem_cons.mp hv with h | h
    · subst h; exact foldl_min_le_init ws v
    · exact foldl_min_le_mem ws w v h

/-- Helper: a max fold is at least its initial accumulator. -/
theorem init_le_foldl_max (vs : List ℚ) : ∀ a : ℚ, a ≤ vs.foldl max a := by
  induction vs with
  | nil => intro a; simp
  | cons w ws ih =>
    intro a
    calc a ≤ max a w := le_max_left a w
    _ ≤ ws.foldl max (max a w) := ih (max a w)
    _ = (w :: ws).foldl max a := rfl

/-- Helper: a max fold is at least any member of the list. -/
theorem mem_le_foldl_max (vs : List ℚ) :
    ∀ a v : ℚ, v ∈ vs → v ≤ vs.foldl max a := by
  induction vs with
  | nil => intro a v hv; cases hv
  | cons w ws ih =>
    intro a v hv
    rcases List.mem_cons.mp hv with h | h
    · subst h
      exact le_trans (le_max_right a v) (init_le_foldl_max ws (max a v))
    · exact ih (max a w) v h

/-- Helper: the column maximum bounds every column value from above. -/
theorem le_listMax (l : List ℚ) (v : ℚ) (hv : v ∈ l) : v ≤ listMax l := by
  cases l with
  | nil => cases hv
  | cons w ws =>
    rcases List.mem_cons.mp hv with h | h
    · subst h; exact init_le_foldl_max ws v
    · exact mem_le_foldl_max ws w v h

/-- The source function make_box on a typed dataset: per numeric column the
observed (min, max) pair; per categorical column the observed label set (the
source stores the pair (set(x), set(x)), both rows holding the same set). -/
def make_box (x : Dataset) : Box :=
  ⟨x.numCols.map (fun c => (listMin c.values, listMax c.values)),
   x.catCols.map (fun c => c.values.toFinset)⟩

/-- Shape invariant of a DataFrame: every column holds one value per row. -/
def Dataset.wf (x : Dataset) : Prop :=
  (∀ c ∈ x.numCols, c.values.length = x.nrows) ∧
  (∀ c ∈ x.catCols, c.values.length = x.nrows)

instance (x : Dataset) : Decidable x.wf := by
  unfold Dataset.wf; infer_instance

/-- Helper: every row of the dataset satisfies every limit of the box built
from the dataset itself. -/
theorem dimSat_make_box (x : Dataset) (hwf : x.wf) (i : ℕ) (hi : i < x.nrows) :
    ∀ d ∈ x.dims, dimSat x (make_box x) i d = true := by
  rintro d hd
  rw [Dataset.dims, List.mem_append] at hd
  rcases hd with hd | hd
  · simp only [List.mem_map, List.mem_range] at hd
    obtain ⟨j, hj, rfl⟩ := hd
    rw [dimSat_num_iff]
    have hjm : j < (x.numCols.map
        (fun c => (listMin c.values, listMax c.values))).length := by simpa using hj
    have e : (make_box x).numLim j =
        (listMin (x.numCols.getD j ⟨[]⟩).values,
         listMax (x.numCols.getD j ⟨[]⟩).values) := by
      rw [make_box, Box.numLim]
      rw [List.getD_eq_getElem _ _ hjm, List.getElem_map, List.getD_eq_getElem _ _ hj]
    have hc : x.numCols.getD j ⟨[]⟩ ∈ x.numCols := by
      rw [List.getD_eq_getElem _ _ hj]
      exact List.getElem_mem hj
    have hlen : (x.numCols.getD j ⟨[]⟩).values.length = x.nrows := hwf.1 _ hc
    have hilen : i < (x.numCols.getD j ⟨[]⟩).values.length := by
      rw [hlen]; exact hi
    have hv : x.numVal j i ∈ (x.numCols.getD j ⟨[]⟩).values := by
      rw [Dataset.numVal, List.getD_eq_getElem _ _ hilen]
      exact List.getElem_mem _
    rw [e]
    exact ⟨listMin_le _ _ hv, le_listMax _ _ hv⟩
  · simp only [List.mem_map, List.mem_range] at hd
    obtain ⟨j, hj, rfl⟩ := hd
    have hjm : j < (x.catCols.map (fun c => c.values.toFinset)).length := by
      simpa using hj
    have e : (make_box x).catLim j = (x.catCols.getD j ⟨∅, []⟩).values.toFinset := by
      rw [make_box, Box.catLim]
      rw [List.getD_eq_getElem _ _ hjm, List.getElem_map, List.getD_eq_getElem _ _ hj]
    have hc : x.catCols.getD j ⟨∅, []⟩ ∈ x.catCols := by
      rw [List.getD_eq_getElem _ _ hj]
      exact List.getElem_mem hj
    have hlen : (x.catCols.getD j ⟨∅, []⟩).values.length = x.nrows := hwf.2 _ hc
    have hilen : i < (x.catCols.getD j ⟨∅, []⟩).values.length := by
      rw [hlen]; exact hi
    have hv : x.catVal j i ∈ (x.catCols.getD j ⟨∅, []⟩).values := by
      rw [Dataset.catVal, List.getD_eq_getElem _ _ hilen]
      exact List.getElem_mem _
    simp only [dimSat]
    by_cases hne : (x.catCategories j \ (make_box x).catLim j).Nonempty
    · simp only [hne, if_true, decide_eq_true_eq]
      rw [e, List.mem_toFinset]
      exact hv
    · simp [hne]

/-- Python int() truncation toward zero, applied by the source to Hbox and
Tbox before the binomial test. -/
def pytrunc (q : ℚ) : ℤ :=
  if 0 ≤ q then ⌊q⌋ else ⌈q⌉

/-- One sided (greater) exact binomial test p-value, the meaning of the
library call sp.stats.binom_test(k, n, p, alternative=greater) named by the
source and the spec: the probability of at least k successes among n
independent trials with success probability p. -/
def binomTestGreater (k n : ℕ) (p : ℚ) : ℚ :=
  ∑ j ∈ Finset.Icc k n, (n.choose j : ℚ) * p ^ j * (1 - p) ^ (n - j)

/-- The boolean mask over all rows for the box with columns restricted to the
restricted dimensions, as built by in_box(x[restricted_dims],
box[restricted_dims]) inside the source function calculate_quasip. -/
def relaxedMask (x : Dataset) (box box_init : Box) : List Bool :=
  (List.range x.nrows).map
    (inBoxDims x box (determine_restricted_dims box box_init))

/-- Numpy boolean mask selection y[logical]. -/
def maskSelect (y logical : List Bool) : List Bool :=
  ((y.zip logical).filter (fun p => p.2)).map (fun p => p.1)

/-- The source function calculate_quasip: mask the rows by the box restricted
to its restricted dimensions, count the selected rows (Tj) and the selected
cases of interest (Hj), form p = Hj/Tj (the division is as unguarded as in
the source; rational division by zero yields 0 where numpy floats yield NaN),
truncate Hbox and Tbox to integers and hand everything to the one sided
binomial test. -/
def calculate_quasip (x : Dataset) (y : List Bool) (box box_init : Box)
    (Hbox Tbox : ℚ) : ℚ :=
  let logical := relaxedMask x box box_init
  let yi := maskSelect y logical
  let Tj : ℕ := yi.length
  let Hj : ℕ := yi.count true
  let p : ℚ := (Hj : ℚ) / (Tj : ℚ)
  binomTestGreater (pytrunc Hbox).toNat (pytrunc Tbox).toNat p

/-- Helper: the binomial tail sum is nonnegative for p in [0, 1]. -/
theorem binomTestGreater_nonneg (k n : ℕ) (p : ℚ) (h0 : 0 ≤ p) (h1 : p ≤ 1) :
    0 ≤ binomTestGreater k n p := by
  refine Finset.sum_nonneg fun j hj => ?_
  have h2 : (0:ℚ) ≤ 1 - p := by linarith
  positivity

/-- Helper: the binomial tail sum is at most one for p in [0, 1]. -/
theorem binomTestGreater_le_one (k n : ℕ) (p : ℚ) (h0 : 0 ≤ p) (h1 : p ≤ 1) :
    binomTestGreater k n p ≤ 1 := by
  have hsub : Finset.Icc k n ⊆ Finset.range (n + 1) := by
    intro j hj
    rw [Finset.mem_range]
    exact Nat.lt_succ_of_le (Finset.mem_Icc.mp hj).2
  have hle : binomTestGreater k n p ≤
      ∑ j ∈ Finset.range (n + 1), (n.choose j : ℚ) * p ^ j * (1 - p) ^ (n - j) := by
    refine Finset.sum_le_sum_of_subset_of_nonneg hsub fun j _ _ => ?_
    have h2 : (0:ℚ) ≤ 1 - p := by linarith
    positivity
  refine le_trans hle (le_of_eq ?_)
  calc ∑ j ∈ Finset.range (n + 1), (n.choose j : ℚ) * p ^ j * (1 - p) ^ (n - j)
      = ∑ j ∈ Finset.range (n + 1), p ^ j * (1 - p) ^ (n - j) * (n.choose j : ℚ) := by
        refine Finset.sum_congr rfl fun j _ => by ring
    _ = (p + (1 - p)) ^ n := (add_pow p (1 - p) n).symm
    _ = 1 := by rw [show p + (1 - p) = (1:ℚ) by ring, one_pow]

/-- Helper: two boxes with equal limit pairs on a dimension check a row
identically on that dimension. -/
theorem dimSat_congr_lim (x : Dataset) (b b2 : Box) (i : ℕ) (d : DimRef)
    (h : limEqAt b b2 d = true) : dimSat x b i d = dimSat x b2 i d := by
  cases d with
  | num j =>
    have e : b.numLim j = b2.numLim j := of_decide_eq_true h
    simp [dimSat, e]
  | cat j =>
    have e : b.catLim j = b2.catLim j := of_decide_eq_true h
    simp [dimSat, e]

/-- Helper: with the reference box built from the dataset itself, membership
restricted to the restricted dimensions agrees with full membership, since
every unrestricted dimension carries the all data limits, which every row
satisfies. -/
theorem inBoxDims_restricted_eq (x : Dataset) (box : Box) (hwf : x.wf)
    (i : ℕ) (hi : i < x.nrows) :
    inBoxDims x box (determine_restricted_dims box (make_box x)) i =
      inBoxRow x box i := by
  have hdims : (make_box x).dims = x.dims := by
    simp [make_box, Box.dims, Dataset.dims]
  rw [inBoxRow, determine_restricted_dims, hdims, inBoxDims, inBoxDims]
  rw [Bool.eq_iff_iff]
  simp only [List.all_eq_true]
  constructor
  · intro hall d hd
    by_cases hp : limEqAt box (make_box x) d = true
    · rw [dimSat_congr_lim x box (make_box x) i d hp]
      exact dimSat_make_box x hwf i hi d hd
    · refine hall d (List.mem_filter.mpr ⟨hd, ?_⟩)
      simp [hp]
  · intro hall d hd
    exact hall d (List.mem_filter.mp hd).1

/-- C4: when the relaxed box holds at least one row, calculate_quasip returns
the one sided (greater) exact binomial test p-value at parameters (Hbox
truncated to an integer, Tbox truncated to an integer, p = Hj/Tj), where Tj
counts the rows inside the relaxed box (the box argument itself) and Hj
counts those of them whose outcome is a case of interest; the returned value
lies in [0, 1]. The reference box is the one built from the dataset and the
dataset is well shaped. -/
theorem quasip_spec (x : Dataset) (y : List Bool) (box : Box) (Hbox Tbox : ℚ)
    (hwf : x.wf)
    (hT : 0 < (maskSelect y ((List.range x.nrows).map (inBoxRow x box))).length) :
    calculate_quasip x y box (make_box x) Hbox Tbox =
      binomTestGreater (pytrunc Hbox).toNat (pytrunc Tbox).toNat
        (((maskSelect y ((List.range x.nrows).map (inBoxRow x box))).count true : ℚ) /
         ((maskSelect y ((List.range x.nrows).map (inBoxRow x box))).length : ℚ)) ∧
    0 ≤ calculate_quasip x y box (make_box x) Hbox Tbox ∧
    calculate_quasip x y box (make_box x) Hbox Tbox ≤ 1 := by
  have hmask : relaxedMask x box (make_box x) =
      (List.range x.nrows).map (inBoxRow x box) := by
    rw [relaxedMask]
    refine List.map_congr_left fun i hi => ?_
    exact inBoxDims_restricted_eq x box hwf i (List.mem_range.mp hi)
  have heq : calculate_quasip x y box (make_box x) Hbox Tbox =
      binomTestGreater (pytrunc Hbox).toNat (pytrunc Tbox).toNat
        (((maskSelect y ((List.range x.nrows).map (inBoxRow x box))).count true : ℚ) /
         ((maskSelect y ((List.range x.nrows).map (inBoxRow x box))).length : ℚ)) := by
    rw [calculate_quasip, hmask]
  have hp0 : (0:ℚ) ≤
      ((maskSelect y ((List.range x.nrows).map (inBoxRow x box))).count true : ℚ) /
      ((maskSelect y ((List.range x.nrows).map (inBoxRow x box))).length : ℚ) :=
    div_nonneg (Nat.cast_nonneg _) (Nat.cast_nonneg _)
  have hTpos : (0:ℚ) <
      ((maskSelect y ((List.range x.nrows).map (inBoxRow x box))).length : ℚ) := by
    exact_mod_cast hT
  have hp1 : ((maskSelect y ((List.range x.nrows).map (inBoxRow x box))).count true : ℚ) /
      ((maskSelect y ((List.range x.nrows).map (inBoxRow x box))).length : ℚ) ≤ 1 := by
    rw [div_le_one hTpos]
    exact_mod_cast List.count_le_length true _
  refine ⟨heq, ?_, ?_⟩
  · rw [heq]
    exact binomTestGreater_nonneg _ _ _ hp0 hp1
  · rw [heq]
    exact binomTestGreater_le_one _ _ _ hp0 hp1

/-- Witness for C4 at a concrete dataset, outcome vector and box. -/
theorem quasip_spec_witness :
    xW.wf ∧
    0 < (maskSelect [true] ((List.range xW.nrows).map (inBoxRow xW bW))).length ∧
    (calculate_quasip xW [true] bW (make_box xW) 1 1 =
      binomTestGreater (pytrunc 1).toNat (pytrunc 1).toNat
        (((maskSelect [true] ((List.range xW.nrows).map (inBoxRow xW bW))).count true : ℚ) /
         ((maskSelect [true] ((List.range xW.nrows).map (inBoxRow xW bW))).length : ℚ)) ∧
      0 ≤ calculate_quasip xW [true] bW (make_box xW) 1 1 ∧
      calculate_quasip xW [true] bW (make_box xW) 1 1 ≤ 1) :=
  ⟨by decide, by decide, quasip_spec xW [true] bW 1 1 (by decide) (by decide)⟩

/-- Concrete one row dataset for the empty relaxed box scenario. -/
def xE : Dataset := ⟨1, [⟨[0]⟩], []⟩

/-- Concrete box that excludes the single row of xE. -/
def boxE : Box := ⟨[(2, 3)], []⟩

/-- C7 evaluation: with the relaxed box holding no rows (Tj = 0) the source
function calculate_quasip has no guard and no sentinel; it forms p = Hj/Tj =
0/0 unguarded and proceeds into the binomial test, returning an ordinary
number. In this rational embedding the total division makes 0/0 = 0, where
the numpy float division emits NaN with only a runtime warning; either way no
explicit error or sentinel for the undefined statistic exists in the code
path of the function itself. -/
theorem quasip_Tj_zero_eval :
    calculate_quasip xE [true] boxE (make_box xE) 1 2 = 0 := by
  have h1 : relaxedMask xE boxE (make_box xE) = [false] := by decide
  rw [calculate_quasip, h1]
  have h2 : maskSelect [true] [false] = [] := by decide
  rw [h2]
  have h3 : ((([] : List Bool).count true : ℚ) / (([] : List Bool).length : ℚ)) = 0 := by
    norm_num
  rw [h3]
  have h4 : (pytrunc 1).toNat = 1 := by
    norm_num [pytrunc]
  have h5 : (pytrunc 2).toNat = 2 := by
    norm_num [pytrunc]
    decide
  rw [h4, h5, binomTestGreater]
  refine Finset.sum_eq_zero fun j hj => ?_
  rw [Finset.mem_Icc] at hj
  have hj0 : j ≠ 0 := by omega
  simp [zero_pow hj0]

/-- Deduplicating append over dimension references. The source accumulates
the dimension union with a Python set (uncs = uncs.union(us)) whose
iteration order is hash dependent and not determined by the source text;
the embedding must fix some deterministic order for the returned list and
uses first encounter order. No theorem below relies on this order: only the
first component of get_sorted_box_lims, the unchanged box list, is the
subject of a theorem. -/
def dedupAppend (acc newDims : List DimRef) : List DimRef :=
  acc ++ newDims.filter (fun d => decide (d ∉ acc))

/-- Union over all boxes of their restricted dimensions, in the fixed
deterministic order described at dedupAppend. -/
def restrictedUnion (boxes : List Box) (box_init : Box) : List DimRef :=
  boxes.foldl (fun acc b => dedupAppend acc (determine_restricted_dims b box_init)) []

/-- Normalized width of one dimension of the first box, the sort key of
get_sorted_box_lims (box_size = nbl[:, 1] - nbl[:, 0]). -/
def sortKey (box0 box_init : Box) (d : DimRef) : ℚ :=
  (normalizeDim box0 box_init d).2 - (normalizeDim box0 box_init d).1

/-- Boolean comparison on dimensions by normalized width of the first box. -/
def keyLe (box0 box_init : Box) (d1 d2 : DimRef) : Bool :=
  decide (sortKey box0 box_init d1 ≤ sortKey box0 box_init d2)

/-- The source function get_sorted_box_lims: collects the union of the
restricted dimensions over all boxes, sorts that union by ascending
normalized width of the first box (uncs[np.argsort(box_size)]), and returns
the box list unchanged together with the sorted dimension list. The order of
the second component is not fully determined by the source: the union order
comes from a Python set and np.argsort runs its default, unstable quicksort;
the embedding fixes one deterministic refinement (first encounter order, a
merge sort). Only the first component, the box list the source rebuilds as
[box for box in boxes], is the subject of a theorem below. -/
def get_sorted_box_lims (boxes : List Box) (box_init : Box) :
    List Box × List DimRef :=
  let uncs := restrictedUnion boxes box_init
  let box0 := boxes.headD ⟨[], []⟩
  (boxes.map fun b => b, uncs.mergeSort (keyLe box0 box_init))

/-- C10 (frame effect): get_sorted_box_lims returns the input box sequence
itself, element for element in the original order; no box is modified,
reordered or dropped; only the dimension list is ordered. -/
theorem sorted_box_lims_frame (boxes : List Box) (box_init : Box)
    (_h : boxes ≠ []) : (get_sorted_box_lims boxes box_init).1 = boxes := by
  simp [get_sorted_box_lims]

/-- Witness for C10 at a concrete nonempty box sequence. -/
theorem sorted_box_lims_frame_witness :
    [bW] ≠ [] ∧ (get_sorted_box_lims [bW] biW).1 = [bW] :=
  ⟨by decide, sorted_box_lims_frame [bW] biW (by decide)⟩

/-- A raw value of a pandas object column before any typing: a numeric
object, a hashable label, or an unhashable object (for instance a list),
which the Python set constructor rejects with TypeError. -/
inductive RawVal where
  | num (q : ℚ)
  | label (s : ℕ)
  | unhashable (n : ℕ)
deriving DecidableEq

/-- A raw column of the input DataFrame: either a column of numeric dtype
(int or float, the first branch of the inner function limits of make_box) or
a column of object dtype. -/
inductive RawColumn where
  | numCol (values : List ℚ)
  | objCol (values : List RawVal)
deriving DecidableEq

/-- The errors of the embedded Python fragment. -/
inductive PyError where
  | typeError
deriving DecidableEq

/-- Hashable content of one raw value; Python raises TypeError when an
unhashable value is put into a set. -/
def hashableVal : RawVal → Except PyError (ℚ ⊕ ℕ)
  | .num q => .ok (.inl q)
  | .label s => .ok (.inr s)
  | .unhashable _ => .error .typeError

/-- Error propagating traversal: a raised exception aborts the whole loop,
as it does in Python. -/
def exceptMap {α β : Type} (f : α → Except PyError β) :
    List α → Except PyError (List β)
  | [] => .ok []
  | a :: as =>
    match f a with
    | .error e => .error e
    | .ok b =>
      match exceptMap f as with
      | .error e => .error e
      | .ok bs => .ok (b :: bs)

/-- A single limit of the raw reference box. -/
inductive RawLim where
  | interval (lower upper : ℚ)
  | labelSet (s : Finset (ℚ ⊕ ℕ))
deriving DecidableEq

/-- The inner function limits of the source function make_box: a column of
int or float dtype yields the observed (min, max) pair; any other column is
collected into a Python set, set(x), which succeeds iff every value is
hashable and raises TypeError otherwise. -/
def limits : RawColumn → Except PyError RawLim
  | .numCol vs => .ok (.interval (listMin vs) (listMax vs))
  | .objCol vs => (exceptMap hashableVal vs).map (fun l => .labelSet l.toFinset)

/-- The source function make_box over the raw columns, x.apply(limits); an
exception raised for any column propagates out of the whole application. -/
def make_box_raw (cols : List RawColumn) : Except PyError (List RawLim) :=
  exceptMap limits cols

/-- Helper: the traversal fails as soon as some member fails. -/
theorem exceptMap_error_of_mem {α β : Type} (f : α → Except PyError β)
    (l : List α) (a : α) (ha : a ∈ l) (he : ∃ e, f a = .error e) :
    ∃ e, exceptMap f l = .error e := by
  induction l with
  | nil => cases ha
  | cons b bs ih =>
    rcases List.mem_cons.mp ha with h | h
    · subst h
      obtain ⟨e, hee⟩ := he
      refine ⟨e, ?_⟩
      simp only [exceptMap, hee]
    · cases hfb : f b with
      | error e =>
        refine ⟨e, ?_⟩
        simp only [exceptMap, hfb]
      | ok v =>
        obtain ⟨e, hee⟩ := ih h
        refine ⟨e, ?_⟩
        simp only [exceptMap, hfb, hee]

/-- Helper: the only error value of the embedded fragment is TypeError. -/
theorem pyerror_eq (e : PyError) : e = .typeError := by
  cases e
  rfl

/-- C9: if some dimension of the raw dataset is neither numeric (int or
float dtype) nor label like (its object values contain an unhashable entry),
then building the reference box fails with TypeError rather than producing a
box for that dimension. -/
theorem make_box_raw_typeerror (cols : List RawColumn)
    (h : ∃ vs, RawColumn.objCol vs ∈ cols ∧ ∃ n, RawVal.unhashable n ∈ vs) :
    make_box_raw cols = .error .typeError := by
  obtain ⟨vs, hmem, n, hn⟩ := h
  have hcol : ∃ e, limits (RawColumn.objCol vs) = .error e := by
    obtain ⟨e, hee⟩ := exceptMap_error_of_mem hashableVal vs _ hn ⟨.typeError, rfl⟩
    refine ⟨e, ?_⟩
    simp only [limits, hee, Except.map]
  obtain ⟨e, hee⟩ := exceptMap_error_of_mem limits cols _ hmem hcol
  rw [make_box_raw, hee, pyerror_eq e]

/-- Witness for C9: a concrete raw dataset whose single column holds an
unhashable value. -/
theorem make_box_raw_typeerror_witness :
    make_box_raw [RawColumn.objCol [RawVal.unhashable 0]] = .error .typeError :=
  make_box_raw_typeerror _ ⟨[RawVal.unhashable 0], by decide, 0, by decide⟩

end ScenarioDiscovery
